import Mathlib

/-!
Verification of the support distribution machine core (`sdm.py`).

The pure numerical fragments are embedded shallowly: matrices of
divergences become functions or `Matrix (Fin n) (Fin n) ℝ`, the external
SVM solver and the worker pool become explicit oracle parameters, and
numpy's in-place array mutation becomes explicit state passing.
Rational numbers stand in for floats wherever the claims are about exact
index bookkeeping; real numbers (with Mathlib's spectral theory) are used
for the eigendecomposition-based PSD projection.
-/

namespace SDM

open Matrix

/-! ## Parameter tuning (`tune_params`, lines 155-235)

`np.median` of a 1-D array: sort, take the middle element, or the mean of
the two middle elements when the length is even. -/

def npMedian (xs : List ℚ) : ℚ :=
  let s := xs.mergeSort (fun a b => a ≤ b)
  let n := s.length
  if n % 2 = 1 then s.getD (n / 2) 0
  else (s.getD (n / 2 - 1) 0 + s.getD (n / 2) 0) / 2

/-- Median of the strictly positive entries, `np.median(divs[divs > 0])`:
the median of the strictly positive
entries of the divergence matrix (row-major flattening; the median does
not depend on the order). -/
def medianPos (divs : List (List ℚ)) : ℚ :=
  npMedian ((divs.flatten).filter (fun x => 0 < x))

/-- The σ grid actually used by one `tune_params` call: when `scale_sigma`
is set, every candidate is multiplied by the median positive divergence
(`sigma_vals *= np.median(divs[divs > 0])`, line 173-174). -/
def scaledSigmas (divs : List (List ℚ)) (sigma_vals : List ℚ) (scale_sigma : Bool) : List ℚ :=
  if scale_sigma then sigma_vals.map (fun s => s * medianPos divs) else sigma_vals

/-- One `tune_params` call viewed through the lens of its σ-grid state.
`np.asarray` on an ndarray argument returns the very same object, and
`sigma_vals *= …` multiplies it in place, so when the caller passes an
ndarray (as the CLI does: `parse_args` stores `np.sort(args.sigma_vals)`,
an ndarray, and `opts_dict` forwards it), the caller's grid is mutated.
First component: the σ candidates this call tunes over; second component:
the contents of the caller's array after the call. -/
def tuneSigmaArrayCall (divs : List (List ℚ)) (scale_sigma : Bool) (arr : List ℚ) :
    List ℚ × List ℚ :=
  (scaledSigmas divs arr scale_sigma, scaledSigmas divs arr scale_sigma)

/-- The σ candidates used by the successive per-fold tuning calls of one
`crossvalidate` run in which the caller's σ grid is a single shared
ndarray (the `opts` dict built at line 509 holds one reference that every
fold's `transduct`/`fit` call forwards to `tune_params`).
`fold_divs` lists the (train-block) divergence matrix seen by each fold. -/
def cvFoldSigmas (fold_divs : List (List (List ℚ))) (arr : List ℚ) : List (List ℚ) :=
  match fold_divs with
  | [] => []
  | d :: ds =>
      let r := tuneSigmaArrayCall d true arr
      r.1 :: cvFoldSigmas ds r.2

/-! ### k-fold splitting

`sklearn.cross_validation.KFold(n, n_folds, shuffle=True)` shuffles the
index range and cuts it into `n_folds` contiguous blocks; the first
`n % n_folds` blocks have `n / n_folds + 1` elements, the rest
`n / n_folds`.  The shuffling is abstracted by the permutation `perm`. -/

def foldSizes (n k : ℕ) : List ℕ :=
  (List.range k).map (fun i => n / k + if i < n % k then 1 else 0)

def splitBlocks : List ℕ → List ℕ → List (List ℕ)
  | [], _ => []
  | s :: ss, xs => xs.take s :: splitBlocks ss (xs.drop s)

/-- The test index sets of the `k` folds of a shuffled k-fold split of
`n` indices, where `perm` is the shuffled index list. -/
def kfoldTests (n k : ℕ) (perm : List ℕ) : List (List ℕ) :=
  splitBlocks (foldSizes n k) perm

/-- Train/test pairs: the train set of a fold is every index not in its
test set. -/
def kfoldSplits (n k : ℕ) (perm : List ℕ) : List (List ℕ × List ℕ) :=
  (kfoldTests n k perm).map (fun t => ((List.range n).filter (fun i => i ∉ t), t))

/-- Collection of the worker-pool task results.

Modelled from the spec: `get_pool` / `apply_async` and the result
collection live in `mp_utils`, which is not part of the sources given;
the spec's failure semantics ("any worker exception aborts the entire
tuning call with no partial-result salvage") make result collection a
fail-fast traversal: any task error aborts the whole collection. -/
def exMapM (f : α → Except String β) : List α → Except String (List β)
  | [] => Except.ok []
  | x :: xs =>
      match f x with
      | Except.error e => Except.error e
      | Except.ok y =>
          match exMapM f xs with
          | Except.error e => Except.error e
          | Except.ok ys => Except.ok (y :: ys)

/-- First maximiser of a 2-D score table in row-major order:
`np.unravel_index(cv_means.argmax(), cv_means.shape)` (line 233);
`argmax` returns the first occurrence of the maximum in C order. -/
def argmax2 (m : List (List ℚ)) : ℕ × ℕ :=
  let flat := (m.enum.map (fun p => p.2.enum.map (fun q => ((p.1, q.1), q.2)))).flatten
  match flat with
  | [] => (0, 0)
  | x :: xs => (xs.foldl (fun best p => if best.2 < p.2 then p else best) x).1

/-- Result of a `tune_params` call, together with whether a worker pool
was created and cross-validation performed. -/
structure TuneOutcome where
  result : ℚ × ℚ
  pool_created : Bool
  cv_performed : Bool
deriving DecidableEq

/-- Parameter tuning, `tune_params` (lines 155-235).  The external SVM fits are abstracted
by `try_params_res`, which returns the CV accuracy of one
(σ-kernel, C, fold) task, or an error when the SVM fit raises.  The
degenerate check `C_vals.size <= 1 and sigma_vals.size <= 1` (line 176)
returns `C_vals[0], sigma_vals[0]` (line 178) before any pool is built;
the search path returns `sigma_vals[best_sigma], C_vals[best_C]`
(line 235), picking the first row-major maximiser of the per-pair mean
accuracy over folds. -/
def tune_params (divs : List (List ℚ)) (C_vals sigma_vals : List ℚ) (scale_sigma : Bool)
    (num_folds : ℕ) (perm : List ℕ)
    (try_params_res : ℚ → ℚ → List ℕ × List ℕ → Except String ℚ) :
    Except String TuneOutcome :=
  let sigma_vals' := scaledSigmas divs sigma_vals scale_sigma
  if C_vals.length ≤ 1 ∧ sigma_vals'.length ≤ 1 then
    match C_vals.head?, sigma_vals'.head? with
    | some C0, some s0 => Except.ok ⟨(C0, s0), false, false⟩
    | _, _ => Except.error "IndexError"
  else
    match exMapM (fun C => exMapM (fun s => exMapM (fun f => try_params_res s C f)
        (kfoldSplits divs.length num_folds perm)) sigma_vals') C_vals with
    | Except.error e => Except.error e
    | Except.ok scores =>
        let cv_means := scores.map (fun row => row.map (fun fs => fs.sum / (num_folds : ℚ)))
        let best := argmax2 cv_means
        Except.ok ⟨(sigma_vals'.getD best.2 0, C_vals.getD best.1 0), true, true⟩

/-! ## Inductive prediction (`SupportDistributionMachine.predict`, lines 362-394) -/

/-- The cross-divergence matrix `predict` feeds to the Gaussian transform
when no precomputed divergences are passed (line 379):

`divs = (divs[-n_test:, :n_train] + divs[:n_train, -n_test].T) / 2`.

`divs[:n_train, -n_test]` (no colon after `-n_test`) is the single
column at index `n_train + n_test - n_test = n_train`, a 1-D array of
length `n_train`; `.T` is a no-op on a 1-D array, and numpy broadcasting
adds it to every row of the `(n_test, n_train)` block.  Entry `(i, j)`
is therefore `(D[n_train+i, j] + D[j, n_train]) / 2`. -/
def predict_cross_divs {α : Type} [Field α] (divs : ℕ → ℕ → α) (n_train : ℕ) :
    ℕ → ℕ → α :=
  fun i j => (divs (n_train + i) j + divs j n_train) / 2

/-- The cross-divergence matrix described by the spec: the directional
asymmetry of the cross block averaged elementwise,
`(D[test_i, train_j] + D[train_j, test_i]) / 2`. -/
def predict_cross_divs_avg {α : Type} [Field α] (divs : ℕ → ℕ → α) (n_train : ℕ) :
    ℕ → ℕ → α :=
  fun i j => (divs (n_train + i) j + divs j (n_train + i)) / 2

/-- A concrete 3×3 divergence matrix (1 training bag, 2 test bags) on
which the two disagree: `D[0,2] = 10`, every other entry `0`. -/
def predictDivsEx : ℕ → ℕ → ℚ :=
  fun i j => if i = 0 ∧ j = 2 then 10 else 0

/-! ## Cross-validation orchestrator (`crossvalidate`, lines 488-558) -/

/-- Fancy assignment `preds[test] = vals`: position `test[j]` receives
`vals[j]`. -/
def writeAt (preds : List ℤ) (idx : List ℕ) (vals : List ℤ) : List ℤ :=
  (idx.zip vals).foldl (fun p iv => p.set iv.1 iv.2) preds

/-- Number of positions where the two vectors agree
(`(preds == labels)` summed). -/
def countMatches (xs ys : List ℤ) : ℕ :=
  ((xs.zip ys).filter (fun p => p.1 = p.2)).length

/-- Mean agreement `np.mean(preds == labels)`: matches divided by the length of `preds`. -/
def npMeanEq (xs ys : List ℤ) : ℚ :=
  (countMatches xs ys : ℚ) / (xs.length : ℚ)

/-- The orchestrator `crossvalidate` viewed at the index-bookkeeping level (lines 536-558):
`preds = -np.ones(num_bags)`; each fold writes its per-fold protocol
predictions (abstracted by `fold_pred`, covering both the transductive
and the inductive branch) into the test slots; the returned accuracy is
`np.mean(preds == labels)`. -/
def crossvalidate (labels : List ℤ) (num_folds : ℕ) (perm : List ℕ)
    (fold_pred : List ℕ → List ℤ) : ℚ × List ℤ :=
  let n := labels.length
  let folds := kfoldTests n num_folds perm
  let preds := folds.foldl (fun p t => writeAt p t (fold_pred t)) (List.replicate n (-1))
  (npMeanEq preds labels, preds)

/-! ## The estimator object (`SupportDistributionMachine.__init__`, lines 242-278) -/

/-- Modelled from the spec: `FIX_MODE_DEFAULT` is a named constant of the
external divergence-estimator module (`get_divs`, §6 of the spec), not
part of the given sources; only its identity matters here, never its
value. -/
def FIX_MODE_DEFAULT : String := "terms"

/-- The estimator's stored configuration (the fields that parameterise
the divergence computations of `fit` and `predict`). -/
structure SDMConfig where
  div_func : String
  K : ℕ
  fix_mode : String
  tail : ℚ
  min_dist : Option ℚ
deriving DecidableEq

/-- The constructor `SupportDistributionMachine.__init__` restricted to those fields:
line 276 stores `FIX_MODE_DEFAULT`, not the `fix_mode` argument. -/
def SDMinit (div_func : String) (K : ℕ) (fix_mode : String) (tail : ℚ)
    (min_dist : Option ℚ) : SDMConfig :=
  { div_func := div_func
    K := K
    fix_mode := FIX_MODE_DEFAULT
    tail := tail
    min_dist := min_dist }

/-- The configuration tuple `fit` passes to `get_divs_cache`
(lines 316-320): `div_func=self.div_func, K=self.K,
fix_mode=self.fix_mode, tail=self.tail, min_dist=self.min_dist`. -/
def fitDivArgs (m : SDMConfig) : String × ℕ × String × ℚ × Option ℚ :=
  (m.div_func, m.K, m.fix_mode, m.tail, m.min_dist)

/-- The configuration tuple `predict` passes to `get_divs`
(lines 373-378): `specs=[self.div_func], Ks=[self.K],
fix_mode=self.fix_mode, tail=self.tail, min_dist=self.min_dist`. -/
def predictDivArgs (m : SDMConfig) : List String × List ℕ × String × ℚ × Option ℚ :=
  ([m.div_func], [m.K], m.fix_mode, m.tail, m.min_dist)

/-! ## PSD projection and kernel construction (`project_psd`, `make_km`,
lines 61-96) -/

/-- Symmetrization `mat += mat.T; mat /= 2` (lines 75-76): averaging with
the transpose. -/
noncomputable def symmetrize {n : ℕ} (M : Matrix (Fin n) (Fin n) ℝ) :
    Matrix (Fin n) (Fin n) ℝ :=
  (2⁻¹ : ℝ) • (M + Mᵀ)

open Classical in
/-- The projection `project_psd(mat, min_eig)` (lines 61-86): symmetrize, eigendecompose;
if the smallest eigenvalue is below the floor, clamp every eigenvalue up
to the floor, reconstruct `vecs @ diag(clamped) @ vecs.T`, and symmetrize
again; otherwise return the symmetrized matrix unchanged. -/
noncomputable def project_psd {n : ℕ} (M : Matrix (Fin n) (Fin n) ℝ) (min_eig : ℝ) :
    Matrix (Fin n) (Fin n) ℝ :=
  have hm : (symmetrize M).IsHermitian := by
    have : (symmetrize M)ᴴ = symmetrize M := by
      simp [symmetrize, Matrix.conjTranspose_smul, Matrix.conjTranspose_add,
        Matrix.conjTranspose_eq_transpose_of_trivial, Matrix.transpose_add,
        add_comm]
    exact this
  if ∃ i, hm.eigenvalues i < min_eig then
    symmetrize ((hm.eigenvectorUnitary : Matrix (Fin n) (Fin n) ℝ) *
      (Matrix.diagonal (fun i => max (hm.eigenvalues i) min_eig) *
        (hm.eigenvectorUnitary : Matrix (Fin n) (Fin n) ℝ)ᴴ))
  else
    symmetrize M

/-- One entry of the pre-projection Gaussian kernel, following the code's
steps (lines 90-93): `km = divs / sigma; km **= 2; km /= -2; np.exp(km)`. -/
noncomputable def gaussEntry (sigma d : ℝ) : ℝ :=
  Real.exp ((d / sigma) ^ 2 / (-2))

/-- The pre-projection Gaussian kernel of `make_km`. -/
noncomputable def gauss_km {n : ℕ} (divs : Matrix (Fin n) (Fin n) ℝ) (sigma : ℝ) :
    Matrix (Fin n) (Fin n) ℝ :=
  Matrix.of fun i j => gaussEntry sigma (divs i j)

/-- Kernel construction `make_km(divs, sigma)` (lines 88-96): Gaussian kernel, then PSD
projection with the default floor `min_eig = 0`. -/
noncomputable def make_km {n : ℕ} (divs : Matrix (Fin n) (Fin n) ℝ) (sigma : ℝ) :
    Matrix (Fin n) (Fin n) ℝ :=
  project_psd (gauss_km divs sigma) 0

/-! ## Inductive fit (`SupportDistributionMachine.fit`, lines 291-360) -/

/-- The ascending list of labeled (non-sentinel) bag indices:
`train_idx = y != -1` as a boolean mask, read off in index order (which
is what both `np.ix_(train_idx, train_idx)` and the comprehension
`[X[i] for i, b in enumerate(train_idx) if b]` do). -/
def labeledIdx {n : ℕ} (y : Fin n → ℤ) : List (Fin n) :=
  (List.finRange n).filter (fun i => y i ≠ -1)

/-- What `fit` hands to the tuner and the final SVM. -/
structure FitModel (α : Type) where
  train_bags : List α
  tune_divs : List (List ℝ)
  train_km : List (List ℝ)
  svm_y : List ℤ

/-- The fit `fit(X, y, divs)` for a chosen bandwidth `sigma` (the value
`tune_params` selected): retains `train_bags_` (line 311), tunes on
`divs[np.ix_(train_idx, train_idx)]` (line 328), trains the final SVM on
`make_km(divs, sigma)[np.ix_(train_idx, train_idx)]` (lines 345-346) with
labels `y[train_idx]` (lines 309, 359). -/
noncomputable def SDMfit {n : ℕ} {α : Type} (X : Fin n → α) (y : Fin n → ℤ)
    (divs : Matrix (Fin n) (Fin n) ℝ) (sigma : ℝ) : FitModel α :=
  let L := labeledIdx y
  { train_bags := L.map X
    tune_divs := L.map (fun i => L.map (fun j => divs i j))
    train_km := L.map (fun i => L.map (fun j => make_km divs sigma i j))
    svm_y := L.map (fun i => y i) }

/-- The training kernel the claim describes: PSD-project the Gaussian
kernel of the *labeled sub-block* of the divergences only (rather than
projecting the full passed matrix and then slicing). -/
noncomputable def fit_train_km_claim {n : ℕ} (y : Fin n → ℤ)
    (divs : Matrix (Fin n) (Fin n) ℝ) (sigma : ℝ) : List (List ℝ) :=
  let L := labeledIdx y
  let sub : Matrix (Fin L.length) (Fin L.length) ℝ :=
    Matrix.of fun p q => divs (L.get p) (L.get q)
  (List.finRange L.length).map (fun p =>
    (List.finRange L.length).map (fun q => make_km sub sigma p q))

/-! ### Concrete instance for the projection-locality question

Three bags, bags 0 and 1 labeled, bag 2 sentinel-labeled (-1); the
divergences are chosen so that the Gaussian kernel of the full bag set is
`!![1, a, a; a, 1, c; a, c, 1]` with `a = exp (-1/100)`,
`c = exp (-4)` — a matrix with one negative eigenvalue — while the
labeled sub-block's kernel `!![1, a; a, 1]` is already PSD. -/

noncomputable def dEx : ℝ := Real.sqrt (1 / 50)

noncomputable def eEx : ℝ := Real.sqrt 8

noncomputable def divsEx : Matrix (Fin 3) (Fin 3) ℝ :=
  !![0, dEx, dEx; dEx, 0, eEx; dEx, eEx, 0]

def yEx : Fin 3 → ℤ := ![0, 1, -1]

def XEx : Fin 3 → ℕ := ![0, 1, 2]

/-- The labeled sub-block of `divsEx` as carved out by
`fit_train_km_claim` (bags 0 and 1). -/
noncomputable def subDivsEx : Matrix (Fin 2) (Fin 2) ℝ :=
  Matrix.of fun p q : Fin 2 =>
    divsEx ((labeledIdx yEx).get p) ((labeledIdx yEx).get q)

noncomputable def aEx : ℝ := Real.exp (-(1 / 100))

noncomputable def cEx : ℝ := Real.exp (-4)

noncomputable def Mex : Matrix (Fin 3) (Fin 3) ℝ :=
  !![1, aEx, aEx; aEx, 1, cEx; aEx, cEx, 1]

noncomputable def sEx : ℝ := Real.sqrt (cEx ^ 2 + 8 * aEx ^ 2)

/-- The positive root of the quadratic factor of `Mex`'s characteristic
polynomial. -/
noncomputable def lamP : ℝ := ((2 + cEx) + sEx) / 2

/-- The negative root. -/
noncomputable def lamM : ℝ := ((2 + cEx) - sEx) / 2

/-- The third eigenvalue. -/
noncomputable def lam1 : ℝ := 1 - cEx

/-- Interpolation coefficient: the quadratic
`p(x) = x + tEx * (x - lam1) * (x - lamP)` sends each eigenvalue of
`Mex` to `max · 0`. -/
noncomputable def tEx : ℝ := (-lamM) / ((lamM - lam1) * (lamM - lamP))

/-! # Theorems -/

/-- Evaluation of `np.median` on a two-element constant array. -/
theorem npMedian_pair (x : ℚ) : npMedian [x, x] = x := by
  simp only [npMedian]
  rw [List.mergeSort_of_sorted (by simp)]
  norm_num

/-- The median positive divergence of the 2×2 matrix with off-diagonal
`x > 0`. -/
theorem medianPos_pair (x : ℚ) (hx : 0 < x) : medianPos [[0, x], [x, 0]] = x := by
  unfold medianPos
  have hfil : (([[0, x], [x, 0]] : List (List ℚ)).flatten).filter
      (fun y => 0 < y) = [x, x] := by
    simp [List.filter_cons, hx, lt_irrefl]
  rw [hfil, npMedian_pair]

/-- Splitting a list into blocks of prescribed sizes and flattening gives
the list back, provided the sizes exhaust it. -/
theorem splitBlocks_flatten (ss : List ℕ) (xs : List ℕ) (h : ss.sum = xs.length) :
    (splitBlocks ss xs).flatten = xs := by
  induction ss generalizing xs with
  | nil =>
      have : xs = [] := List.length_eq_zero.mp (by simpa using h.symm)
      simp [splitBlocks, this]
  | cons s ss ih =>
      have h' : s + ss.sum = xs.length := by simpa using h
      simp only [splitBlocks, List.flatten_cons]
      rw [ih (xs.drop s) (by rw [List.length_drop]; omega)]
      exact List.take_append_drop s xs

theorem sum_range_indicator (c m k : ℕ) :
    ((List.range k).map (fun i => c + if i < m then 1 else 0)).sum =
      k * c + min m k := by
  induction k with
  | zero => simp
  | succ k ih =>
      rw [List.range_succ, List.map_append, List.sum_append]
      simp only [List.map_cons, List.map_nil, List.sum_cons, List.sum_nil, ih,
        Nat.succ_mul]
      by_cases hk : k < m
      · simp only [hk, if_true]
        omega
      · simp only [hk, if_false]
        omega

/-- The k-fold block sizes `n / k (+1 for the first n % k folds)` sum
to `n`. -/
theorem foldSizes_sum (n k : ℕ) (hk : 0 < k) : (foldSizes n k).sum = n := by
  unfold foldSizes
  rw [sum_range_indicator]
  have h1 : n % k < k := Nat.mod_lt _ hk
  have h2 := Nat.div_add_mod n k
  omega

/-- Partition property of the shuffled k-fold split: every index below
`n` lands in exactly one fold's test set. -/
theorem kfoldTests_count (n k : ℕ) (hk : 0 < k) (perm : List ℕ)
    (hperm : perm.Perm (List.range n)) (i : ℕ) (hi : i < n) :
    ((kfoldTests n k perm).map (fun t => t.count i)).sum = 1 := by
  have hlen : perm.length = n := by simpa using hperm.length_eq
  have hflat : (kfoldTests n k perm).flatten = perm :=
    splitBlocks_flatten _ _ (by rw [foldSizes_sum n k hk, hlen])
  have hcount : (kfoldTests n k perm).flatten.count i = 1 := by
    rw [hflat, hperm.count_eq]
    exact List.count_eq_one_of_mem (List.nodup_range n) (List.mem_range.mpr hi)
  rw [← hcount, List.count_flatten]

theorem writeAt_length (p : List ℤ) (idx : List ℕ) (vals : List ℤ) :
    (writeAt p idx vals).length = p.length := by
  unfold writeAt
  generalize idx.zip vals = l
  induction l generalizing p with
  | nil => rfl
  | cons x xs ih =>
      rw [List.foldl_cons, ih]
      exact List.length_set p x.1 x.2

theorem foldl_writeAt_length (folds : List (List ℕ)) (fp : List ℕ → List ℤ)
    (p : List ℤ) :
    (folds.foldl (fun p t => writeAt p t (fp t)) p).length = p.length := by
  induction folds generalizing p with
  | nil => rfl
  | cons t ts ih => rw [List.foldl_cons, ih, writeAt_length]

theorem countMatches_le (xs ys : List ℤ) : countMatches xs ys ≤ xs.length := by
  unfold countMatches
  calc ((xs.zip ys).filter (fun p => p.1 = p.2)).length
      ≤ (xs.zip ys).length := List.length_filter_le _ _
    _ ≤ xs.length := by rw [List.length_zip]; exact Nat.min_le_left _ _

/-- C1: for singleton C and σ grids, `tune_params` performs no
cross-validation and creates no pool, but it returns the pair as
`(C_vals[0], sigma_vals[0])` — line 178 — while the search path
(line 235) and every caller (`self.sigma_, self.C_ = tune_params(...)`)
use the order `(best_sigma, best_C)`: the two components come back
swapped, so the claimed contract order is violated.  Here with
`C_vals = [4]`, `sigma_vals = [2]` the call returns `(4, 2)`, not the
contract's `(2, 4)`. -/
theorem tune_params_degenerate_swapped :
    tune_params [[0]] [4] [2] false 3 [0] (fun _ _ _ => Except.ok 0) =
      Except.ok ⟨(4, 2), false, false⟩ ∧
    ((4 : ℚ), (2 : ℚ)) ≠ ((2 : ℚ), (4 : ℚ)) := by
  constructor
  · rfl
  · decide

/-- C2: in `predict` the reverse-direction term of the averaged cross
block reads `divs[:n_train, -n_test]` (line 379, missing colon), the
single column of the *first* test bag, broadcast over all test rows.
With 1 training bag and 2 test bags, `D[0, 2] = 10` and all other
entries 0, the matrix fed to the Gaussian transform has entry
`(1, 0) = (D[2,0] + D[0,1])/2 = 0`, while the elementwise average the
spec describes gives `(D[2,0] + D[0,2])/2 = 5`. -/
theorem predict_cross_divs_first_test_column_bug :
    predict_cross_divs predictDivsEx 1 1 0 = 0 ∧
    predict_cross_divs_avg predictDivsEx 1 1 0 = 5 ∧
    predict_cross_divs predictDivsEx 1 1 0 ≠
      predict_cross_divs_avg predictDivsEx 1 1 0 := by
  refine ⟨?_, ?_, ?_⟩ <;>
    norm_num [predict_cross_divs, predict_cross_divs_avg, predictDivsEx]

/-- C3: `np.asarray` returns the caller's ndarray itself and
`sigma_vals *= median` rescales it in place, so the caller's grid is
changed by the call, and across the folds of one `crossvalidate` run the
rescaling compounds.  With original grid `[1]` and fold medians `2` and
`3`, the second fold tunes over `[6] = [1 · 2 · 3]`, not the claimed
`[3] = [1 · 3]`, and after the first call the caller's array holds `[2]`,
not `[1]`. -/
theorem tune_sigma_inplace_compounding_bug :
    cvFoldSigmas [[[0, 2], [2, 0]], [[0, 3], [3, 0]]] [1] = [[2], [6]] ∧
    ([6] : List ℚ) ≠ [3] ∧
    (tuneSigmaArrayCall [[0, 2], [2, 0]] true [1]).2 ≠ [1] := by
  have h2 : medianPos [[0, 2], [2, 0]] = 2 := medianPos_pair 2 (by norm_num)
  have h3 : medianPos [[0, 3], [3, 0]] = 3 := medianPos_pair 3 (by norm_num)
  refine ⟨?_, by decide, ?_⟩
  · simp [cvFoldSigmas, tuneSigmaArrayCall, scaledSigmas, h2, h3]
    norm_num
  · simp [tuneSigmaArrayCall, scaledSigmas, h2]

/-- C10: the constructor stores `FIX_MODE_DEFAULT` regardless of the
`fix_mode` argument (line 276), so the divergence-call configurations of
`fit` and `predict` coincide for any two constructor-supplied values. -/
theorem sdm_fix_mode_ignored (div_func : String) (K : ℕ) (fm1 fm2 : String)
    (tail : ℚ) (md : Option ℚ) :
    (SDMinit div_func K fm1 tail md).fix_mode = FIX_MODE_DEFAULT ∧
    fitDivArgs (SDMinit div_func K fm1 tail md) =
      fitDivArgs (SDMinit div_func K fm2 tail md) ∧
    predictDivArgs (SDMinit div_func K fm1 tail md) =
      predictDivArgs (SDMinit div_func K fm2 tail md) :=
  ⟨rfl, rfl, rfl⟩

/-- Fail-fast traversal: if any element of the list maps to an error,
the whole collection is an error. -/
theorem exMapM_error_of_mem {α β : Type} (f : α → Except String β) (xs : List α)
    (x : α) (hx : x ∈ xs) (he : ∃ e, f x = Except.error e) :
    ∃ e, exMapM f xs = Except.error e := by
  induction xs with
  | nil => cases hx
  | cons y ys ih =>
      cases hfy : f y with
      | error e => exact ⟨e, by simp [exMapM, hfy]⟩
      | ok v =>
          have hx' : x ∈ ys := by
            rcases List.mem_cons.mp hx with h | h
            · subst h
              obtain ⟨e, he⟩ := he
              rw [he] at hfy
              cases hfy
            · exact h
          obtain ⟨e, he'⟩ := ih hx'
          exact ⟨e, by simp [exMapM, hfy, he']⟩

/-- C5: if the SVM fit of a single (C, σ, fold) task raises, the whole
`tune_params` call aborts with an error — no partial-result fallback, no
retry, no pair computed from the remaining tasks' scores. -/
theorem tune_params_task_failure_aborts
    (divs : List (List ℚ)) (C_vals sigma_vals : List ℚ) (scale_sigma : Bool)
    (num_folds : ℕ) (perm : List ℕ)
    (tryP : ℚ → ℚ → List ℕ × List ℕ → Except String ℚ)
    (C s : ℚ) (f : List ℕ × List ℕ)
    (hC : C ∈ C_vals) (hs : s ∈ scaledSigmas divs sigma_vals scale_sigma)
    (hf : f ∈ kfoldSplits divs.length num_folds perm)
    (he : ∃ e, tryP s C f = Except.error e)
    (hnd : ¬(C_vals.length ≤ 1 ∧ (scaledSigmas divs sigma_vals scale_sigma).length ≤ 1)) :
    ∃ msg, tune_params divs C_vals sigma_vals scale_sigma num_folds perm tryP =
      Except.error msg := by
  have h1 : ∃ e, exMapM (fun f => tryP s C f)
      (kfoldSplits divs.length num_folds perm) = Except.error e :=
    exMapM_error_of_mem _ _ f hf he
  have h2 : ∃ e, exMapM (fun s => exMapM (fun f => tryP s C f)
      (kfoldSplits divs.length num_folds perm))
      (scaledSigmas divs sigma_vals scale_sigma) = Except.error e :=
    exMapM_error_of_mem _ _ s hs h1
  have h3 : ∃ e, exMapM (fun C => exMapM (fun s => exMapM (fun f => tryP s C f)
      (kfoldSplits divs.length num_folds perm))
      (scaledSigmas divs sigma_vals scale_sigma)) C_vals = Except.error e :=
    exMapM_error_of_mem _ _ C hC h2
  obtain ⟨e, hE⟩ := h3
  refine ⟨e, ?_⟩
  unfold tune_params
  rw [if_neg hnd, hE]

/-- C6: in a `crossvalidate` run with `2 ≤ k ≤ n` folds, every bag index
belongs to exactly one fold's test set (so every prediction slot is
assigned exactly once), and the returned accuracy lies in `[0, 1]` and
equals the fraction of entries of the returned prediction vector that
match the true labels. -/
theorem crossvalidate_partition_and_accuracy
    (labels : List ℤ) (k : ℕ) (perm : List ℕ) (fp : List ℕ → List ℤ)
    (hk : 2 ≤ k) (hkn : k ≤ labels.length)
    (hperm : perm.Perm (List.range labels.length)) :
    (∀ i, i < labels.length →
      ((kfoldTests labels.length k perm).map (fun t => t.count i)).sum = 1) ∧
    0 ≤ (crossvalidate labels k perm fp).1 ∧
    (crossvalidate labels k perm fp).1 ≤ 1 ∧
    (crossvalidate labels k perm fp).1 =
      (countMatches (crossvalidate labels k perm fp).2 labels : ℚ) /
        (labels.length : ℚ) := by
  have hk0 : 0 < k := lt_of_lt_of_le (by norm_num) hk
  have hn0 : 0 < labels.length := lt_of_lt_of_le hk0 hkn
  have hpl : (crossvalidate labels k perm fp).2.length = labels.length := by
    simp only [crossvalidate]
    rw [foldl_writeAt_length]
    exact List.length_replicate _ _
  have hacc : (crossvalidate labels k perm fp).1 =
      (countMatches (crossvalidate labels k perm fp).2 labels : ℚ) /
        ((crossvalidate labels k perm fp).2.length : ℚ) := rfl
  have hm : (countMatches (crossvalidate labels k perm fp).2 labels : ℚ) ≤
      (labels.length : ℚ) := by
    have := countMatches_le (crossvalidate labels k perm fp).2 labels
    rw [hpl] at this
    exact_mod_cast this
  refine ⟨fun i hi => kfoldTests_count _ k hk0 perm hperm i hi, ?_, ?_, ?_⟩
  · rw [hacc]
    positivity
  · rw [hacc, hpl]
    rw [div_le_one (by exact_mod_cast hn0)]
    exact hm
  · rw [hacc, hpl]

/-- Witness for C6 on a concrete 4-bag, 2-fold run. -/
theorem crossvalidate_partition_and_accuracy_witness :
    (∀ i, i < ([0, 1, 1, 0] : List ℤ).length →
      ((kfoldTests ([0, 1, 1, 0] : List ℤ).length 2 [2, 0, 3, 1]).map
        (fun t => t.count i)).sum = 1) ∧
    0 ≤ (crossvalidate [0, 1, 1, 0] 2 [2, 0, 3, 1] (fun t => t.map (fun _ => 1))).1 ∧
    (crossvalidate [0, 1, 1, 0] 2 [2, 0, 3, 1] (fun t => t.map (fun _ => 1))).1 ≤ 1 ∧
    (crossvalidate [0, 1, 1, 0] 2 [2, 0, 3, 1] (fun t => t.map (fun _ => 1))).1 =
      (countMatches
        (crossvalidate [0, 1, 1, 0] 2 [2, 0, 3, 1] (fun t => t.map (fun _ => 1))).2
        [0, 1, 1, 0] : ℚ) / (([0, 1, 1, 0] : List ℤ).length : ℚ) :=
  crossvalidate_partition_and_accuracy [0, 1, 1, 0] 2 [2, 0, 3, 1]
    (fun t => t.map (fun _ => 1)) (by norm_num) (by norm_num) (by decide)

/-- Witness for C5 at a concrete failing task. -/
theorem tune_params_task_failure_aborts_witness :
    ∃ msg, tune_params [[0, 1], [1, 0]] [1, 2] [1] false 2 [0, 1]
      (fun _ _ _ => Except.error "svm fit raised") = Except.error msg :=
  tune_params_task_failure_aborts [[0, 1], [1, 0]] [1, 2] [1] false 2 [0, 1]
    (fun _ _ _ => Except.error "svm fit raised") 1 1 ([1], [0])
    (by decide) (by decide) (by decide) ⟨"svm fit raised", rfl⟩ (by decide)

/-! ### General facts about `symmetrize` and `project_psd` -/

theorem symmetrize_isHermitian {n : ℕ} (M : Matrix (Fin n) (Fin n) ℝ) :
    (symmetrize M).IsHermitian := by
  have : (symmetrize M)ᴴ = symmetrize M := by
    simp [symmetrize, Matrix.conjTranspose_smul, Matrix.conjTranspose_add,
      Matrix.conjTranspose_eq_transpose_of_trivial, Matrix.transpose_add, add_comm]
  exact this

theorem symmetrize_eq_self {n : ℕ} (M : Matrix (Fin n) (Fin n) ℝ) (h : Mᵀ = M) :
    symmetrize M = M := by
  unfold symmetrize
  rw [h, ← two_smul ℝ M, smul_smul]
  norm_num

/-- Eigenvalues only depend on the matrix, not on the proof of
hermiticity. -/
theorem eigenvalues_congr {n : ℕ} {A B : Matrix (Fin n) (Fin n) ℝ} (h : A = B)
    (hA : A.IsHermitian) (hB : B.IsHermitian) : hA.eigenvalues = hB.eigenvalues := by
  subst h
  rfl

open Classical in
/-- Unfolding of `project_psd` with the hermiticity proof named, so that the
branch can be split on. -/
theorem project_psd_eq_ite {n : ℕ} (M : Matrix (Fin n) (Fin n) ℝ) (c : ℝ) :
    project_psd M c =
      if ∃ i, (symmetrize_isHermitian M).eigenvalues i < c then
        symmetrize (((symmetrize_isHermitian M).eigenvectorUnitary :
            Matrix (Fin n) (Fin n) ℝ) *
          (Matrix.diagonal (fun i => max ((symmetrize_isHermitian M).eigenvalues i) c) *
            ((symmetrize_isHermitian M).eigenvectorUnitary : Matrix (Fin n) (Fin n) ℝ)ᴴ))
      else symmetrize M := rfl

theorem project_psd_cheap {n : ℕ} (M : Matrix (Fin n) (Fin n) ℝ) (c : ℝ)
    (h : ¬ ∃ i, (symmetrize_isHermitian M).eigenvalues i < c) :
    project_psd M c = symmetrize M := by
  rw [project_psd_eq_ite, if_neg h]

theorem project_psd_reconstruct {n : ℕ} (M : Matrix (Fin n) (Fin n) ℝ) (c : ℝ)
    (h : ∃ i, (symmetrize_isHermitian M).eigenvalues i < c) :
    project_psd M c = symmetrize
      (((symmetrize_isHermitian M).eigenvectorUnitary : Matrix (Fin n) (Fin n) ℝ) *
        (Matrix.diagonal (fun i => max ((symmetrize_isHermitian M).eigenvalues i) c) *
          ((symmetrize_isHermitian M).eigenvectorUnitary : Matrix (Fin n) (Fin n) ℝ)ᴴ)) := by
  rw [project_psd_eq_ite, if_pos h]

/-- Over `ℝ`, hermitian means symmetric. -/
theorem transpose_eq_of_isHermitian {n : ℕ} {A : Matrix (Fin n) (Fin n) ℝ}
    (h : A.IsHermitian) : Aᵀ = A := by
  have := h
  rwa [Matrix.IsHermitian, Matrix.conjTranspose_eq_transpose_of_trivial] at this

theorem project_psd_isHermitian {n : ℕ} (M : Matrix (Fin n) (Fin n) ℝ) (c : ℝ) :
    (project_psd M c).IsHermitian := by
  rw [project_psd_eq_ite]
  split
  · exact symmetrize_isHermitian _
  · exact symmetrize_isHermitian M

/-- Rayleigh-quotient bound: if `A - c•1` is PSD then every eigenvalue of
`A` is at least `c`. -/
theorem eig_ge_of_sub_psd {n : ℕ} {A : Matrix (Fin n) (Fin n) ℝ} (hA : A.IsHermitian)
    (c : ℝ) (h : (A - c • (1 : Matrix (Fin n) (Fin n) ℝ)).PosSemidef) (i : Fin n) :
    c ≤ hA.eigenvalues i := by
  have hv := hA.mulVec_eigenvectorBasis i
  set v : Fin n → ℝ := ⇑(hA.eigenvectorBasis i) with hvdef
  have hv0 : v ≠ 0 := hA.eigenvectorBasis.orthonormal.ne_zero i
  have hdotpos : 0 < Matrix.dotProduct v v := by
    rcases lt_or_eq_of_le (Finset.sum_nonneg fun j _ => mul_self_nonneg (v j)) with h' | h'
    · exact h'
    · exact absurd (Matrix.dotProduct_self_eq_zero.mp h'.symm) hv0
  have h2 := h.2 v
  have hstar : star v = v := by
    funext j
    simp
  rw [hstar, Matrix.sub_mulVec, Matrix.smul_mulVec_assoc, Matrix.one_mulVec, hv,
    ← sub_smul, Matrix.dotProduct_smul, smul_eq_mul] at h2
  have := (mul_nonneg_iff_of_pos_right hdotpos).mp h2
  linarith

/-- The reconstructed matrix, shifted by the floor, is PSD. -/
theorem reconstruct_sub_smul_posSemidef {n : ℕ} {A : Matrix (Fin n) (Fin n) ℝ}
    (hA : A.IsHermitian) (c : ℝ) :
    ((hA.eigenvectorUnitary : Matrix (Fin n) (Fin n) ℝ) *
        (Matrix.diagonal (fun i => max (hA.eigenvalues i) c) *
          (hA.eigenvectorUnitary : Matrix (Fin n) (Fin n) ℝ)ᴴ) -
      c • (1 : Matrix (Fin n) (Fin n) ℝ)).PosSemidef := by
  set U : Matrix (Fin n) (Fin n) ℝ := (hA.eigenvectorUnitary : Matrix (Fin n) (Fin n) ℝ)
    with hUdef
  have hUU : U * Uᴴ = 1 := by
    have := (Matrix.mem_unitaryGroup_iff).mp hA.eigenvectorUnitary.2
    rwa [Matrix.star_eq_conjTranspose] at this
  have hshift : U * (Matrix.diagonal (fun i => max (hA.eigenvalues i) c) * Uᴴ) -
      c • (1 : Matrix (Fin n) (Fin n) ℝ) =
      U * Matrix.diagonal (fun i => max (hA.eigenvalues i) c - c) * Uᴴ := by
    have h1 : c • (1 : Matrix (Fin n) (Fin n) ℝ) =
        U * (c • (1 : Matrix (Fin n) (Fin n) ℝ)) * Uᴴ := by
      rw [Matrix.mul_smul, Matrix.mul_one, Matrix.smul_mul, hUU]
    have h2 : Matrix.diagonal (fun i => max (hA.eigenvalues i) c) -
        c • (1 : Matrix (Fin n) (Fin n) ℝ) =
        Matrix.diagonal (fun i => max (hA.eigenvalues i) c - c) := by
      ext i j
      by_cases hij : i = j
      · subst hij
        simp
      · simp [Matrix.diagonal_apply_ne _ hij, Matrix.one_apply_ne hij]
    rw [h1, ← Matrix.mul_assoc, ← Matrix.sub_mul, ← Matrix.mul_sub, h2]
  rw [hshift]
  exact (Matrix.PosSemidef.diagonal (fun i => sub_nonneg.mpr (le_max_right _ _))).mul_mul_conjTranspose_same U

/-- C7: `project_psd` returns a symmetric matrix all of whose eigenvalues
are at least `min_eig` (exactly, in real arithmetic), for every real
square input and every floor. -/
theorem project_psd_eigenvalue_floor {n : ℕ} (M : Matrix (Fin n) (Fin n) ℝ) (c : ℝ) :
    (project_psd M c).IsSymm ∧
    ∀ i, c ≤ (project_psd_isHermitian M c).eigenvalues i := by
  constructor
  · exact transpose_eq_of_isHermitian (project_psd_isHermitian M c)
  · intro i
    by_cases h : ∃ j, (symmetrize_isHermitian M).eigenvalues j < c
    · have hproj := project_psd_reconstruct M c h
      have hRH : (symmetrize
          (((symmetrize_isHermitian M).eigenvectorUnitary : Matrix (Fin n) (Fin n) ℝ) *
            (Matrix.diagonal (fun j => max ((symmetrize_isHermitian M).eigenvalues j) c) *
              ((symmetrize_isHermitian M).eigenvectorUnitary :
                Matrix (Fin n) (Fin n) ℝ)ᴴ))).IsHermitian := symmetrize_isHermitian _
      rw [eigenvalues_congr hproj (project_psd_isHermitian M c) hRH]
      -- the reconstructed matrix is hermitian, so symmetrizing is the identity
      have hrec : (((symmetrize_isHermitian M).eigenvectorUnitary :
          Matrix (Fin n) (Fin n) ℝ) *
          (Matrix.diagonal (fun j => max ((symmetrize_isHermitian M).eigenvalues j) c) *
            ((symmetrize_isHermitian M).eigenvectorUnitary :
              Matrix (Fin n) (Fin n) ℝ)ᴴ)).IsHermitian := by
        have hd : (Matrix.diagonal
            (fun j => max ((symmetrize_isHermitian M).eigenvalues j) c))ᴴ =
            Matrix.diagonal (fun j => max ((symmetrize_isHermitian M).eigenvalues j) c) := by
          rw [Matrix.diagonal_conjTranspose]
          congr 1
        show _ = _
        rw [← Matrix.mul_assoc, Matrix.conjTranspose_mul, Matrix.conjTranspose_mul,
          Matrix.conjTranspose_conjTranspose, hd, Matrix.mul_assoc]
      have hsymrec := symmetrize_eq_self _ (transpose_eq_of_isHermitian hrec)
      rw [eigenvalues_congr hsymrec hRH hrec]
      refine eig_ge_of_sub_psd hrec c ?_ i
      exact reconstruct_sub_smul_posSemidef (symmetrize_isHermitian M) c
    · have hproj := project_psd_cheap M c h
      rw [eigenvalues_congr hproj (project_psd_isHermitian M c) (symmetrize_isHermitian M)]
      push_neg at h
      exact h i

/-- Projecting a symmetric PSD matrix with floor 0 is the identity: the
cheap path is taken and returns the symmetrized (hence unchanged) input. -/
theorem project_psd_eq_self_of_psd {n : ℕ} (M : Matrix (Fin n) (Fin n) ℝ)
    (hsym : M.IsSymm) (hpsd : M.PosSemidef) :
    project_psd M 0 = M := by
  have hse : symmetrize M = M := symmetrize_eq_self M hsym
  have h : ¬ ∃ i, (symmetrize_isHermitian M).eigenvalues i < 0 := by
    push_neg
    intro i
    rw [eigenvalues_congr hse (symmetrize_isHermitian M) hpsd.1]
    exact hpsd.eigenvalues_nonneg i
  rw [project_psd_cheap M 0 h, hse]

/-- C9: PSD idempotence of the projection. -/
theorem project_psd_idempotent_on_psd {n : ℕ} (M : Matrix (Fin n) (Fin n) ℝ)
    (hsym : M.IsSymm) (hpsd : M.PosSemidef) :
    project_psd M 0 = M :=
  project_psd_eq_self_of_psd M hsym hpsd

/-- Witness for C9: the 2×2 identity is symmetric and PSD, and projecting
it returns it unchanged. -/
theorem project_psd_idempotent_on_psd_witness :
    project_psd (1 : Matrix (Fin 2) (Fin 2) ℝ) 0 = 1 :=
  project_psd_idempotent_on_psd 1 Matrix.transpose_one Matrix.PosSemidef.one

/-- C8: every entry of the pre-projection Gaussian kernel equals
`exp (-(D/σ)²/2)`, hence lies in `(0, 1]`; `make_km` is that kernel
followed by the PSD projection with floor 0; and the diagonal entry tends
to 1 as the divergence tends to 0. -/
theorem make_km_pre_projection_range {n : ℕ} (D : Matrix (Fin n) (Fin n) ℝ)
    (sigma : ℝ) (hs : 0 < sigma) (hD : ∀ i j, 0 ≤ D i j) :
    (∀ i j, gauss_km D sigma i j = Real.exp (-((D i j / sigma) ^ 2 / 2))) ∧
    (∀ i j, 0 < gauss_km D sigma i j ∧ gauss_km D sigma i j ≤ 1) ∧
    make_km D sigma = project_psd (gauss_km D sigma) 0 ∧
    Filter.Tendsto (gaussEntry sigma) (nhds 0) (nhds 1) := by
  refine ⟨?_, ?_, rfl, ?_⟩
  · intro i j
    show Real.exp ((D i j / sigma) ^ 2 / (-2)) = _
    congr 1
    rw [div_neg]
  · intro i j
    constructor
    · exact Real.exp_pos _
    · show Real.exp ((D i j / sigma) ^ 2 / (-2)) ≤ 1
      rw [Real.exp_le_one_iff, div_neg]
      have := sq_nonneg (D i j / sigma)
      linarith
  · have hcont : Continuous (gaussEntry sigma) := by
      unfold gaussEntry
      exact Real.continuous_exp.comp
        (((continuous_id.div_const sigma).pow 2).div_const (-2))
    have h0 : gaussEntry sigma 0 = 1 := by
      simp [gaussEntry]
    have := hcont.tendsto 0
    rwa [h0] at this

/-- Witness for C8 on the 1×1 zero divergence matrix with `σ = 1`. -/
theorem make_km_pre_projection_range_witness :
    (∀ i j, gauss_km (0 : Matrix (Fin 1) (Fin 1) ℝ) 1 i j =
      Real.exp (-(((0 : Matrix (Fin 1) (Fin 1) ℝ) i j / 1) ^ 2 / 2))) ∧
    (∀ i j, 0 < gauss_km (0 : Matrix (Fin 1) (Fin 1) ℝ) 1 i j ∧
      gauss_km (0 : Matrix (Fin 1) (Fin 1) ℝ) 1 i j ≤ 1) ∧
    make_km (0 : Matrix (Fin 1) (Fin 1) ℝ) 1 =
      project_psd (gauss_km (0 : Matrix (Fin 1) (Fin 1) ℝ) 1) 0 ∧
    Filter.Tendsto (gaussEntry 1) (nhds 0) (nhds 1) :=
  make_km_pre_projection_range 0 1 one_pos (fun i j => le_of_eq (by simp))

/-! ### Numeric facts about the concrete fit instance -/

theorem aEx_pos : 0 < aEx := Real.exp_pos _

theorem aEx_lt_one : aEx < 1 := by
  rw [aEx, Real.exp_lt_one_iff]
  norm_num

theorem cEx_pos : 0 < cEx := Real.exp_pos _

theorem cEx_lt_one : cEx < 1 := by
  rw [cEx, Real.exp_lt_one_iff]
  norm_num

theorem cEx_lt_aEx : cEx < aEx := by
  rw [cEx, aEx]
  exact Real.exp_lt_exp.mpr (by norm_num)

theorem aEx_sq : aEx ^ 2 = Real.exp (-(1 / 50)) := by
  rw [aEx, sq, ← Real.exp_add]
  norm_num

theorem cEx_lt_sixteenth : cEx < 1 / 16 := by
  rw [cEx]
  have he : (2.7182818283 : ℝ) < Real.exp 1 := Real.exp_one_gt_d9
  have h4 : (16 : ℝ) < Real.exp 4 := by
    have hx : Real.exp (4 : ℝ) = Real.exp 1 * Real.exp 1 * Real.exp 1 * Real.exp 1 := by
      rw [← Real.exp_add, ← Real.exp_add, ← Real.exp_add]
      norm_num
    have h2 : (2 : ℝ) < Real.exp 1 := by linarith
    have h3 : (4 : ℝ) < Real.exp 1 * Real.exp 1 := by nlinarith
    rw [hx]
    nlinarith [Real.exp_pos (1 : ℝ)]
  rw [Real.exp_neg]
  have h16 : ((16 : ℝ))⁻¹ = 1 / 16 := by norm_num
  rw [← h16]
  exact inv_strictAnti₀ (by norm_num) h4

theorem one_add_cEx_lt : 1 + cEx < 2 * aEx ^ 2 := by
  rw [aEx_sq]
  have h1 : 1 - 1 / 50 ≤ Real.exp (-(1 / 50) : ℝ) := by
    have := Real.add_one_le_exp (-(1 / 50) : ℝ)
    linarith
  have h2 := cEx_lt_sixteenth
  linarith

theorem sEx_sq : sEx ^ 2 = cEx ^ 2 + 8 * aEx ^ 2 := by
  rw [sEx]
  exact Real.sq_sqrt (by positivity)

theorem sEx_pos : 0 < sEx := by
  rw [sEx]
  apply Real.sqrt_pos.mpr
  nlinarith [pow_pos aEx_pos 2, pow_pos cEx_pos 2]

theorem sEx_gt : 2 + cEx < sEx := by
  have h1 : (2 + cEx) ^ 2 < sEx ^ 2 := by
    rw [sEx_sq]
    nlinarith [one_add_cEx_lt, cEx_pos]
  exact lt_of_pow_lt_pow_left₀ 2 sEx_pos.le h1

theorem lamM_neg : lamM < 0 := by
  unfold lamM
  have := sEx_gt
  linarith

theorem lamP_pos : 0 < lamP := by
  unfold lamP
  have := cEx_pos
  have := sEx_pos
  linarith

theorem lam1_pos : 0 < lam1 := by
  unfold lam1
  have := cEx_lt_one
  linarith

theorem three_cEx_lt_sEx : 3 * cEx < sEx := by
  have h1 : (3 * cEx) ^ 2 < sEx ^ 2 := by
    rw [sEx_sq]
    nlinarith [cEx_lt_aEx, cEx_pos]
  exact lt_of_pow_lt_pow_left₀ 2 sEx_pos.le h1

theorem lamM_sub_lamP : lamM - lamP = -sEx := by
  unfold lamM lamP
  ring

theorem tEx_pos : 0 < tEx := by
  unfold tEx
  apply div_pos
  · linarith [lamM_neg]
  · apply mul_pos_of_neg_of_neg
    · linarith [lamM_neg, lam1_pos]
    · rw [lamM_sub_lamP]
      linarith [sEx_pos]

/-! ### Spectral structure of the concrete full-set kernel `Mex` -/

theorem Mex_isHermitian : Mex.IsHermitian := by
  have : Mexᴴ = Mex := by
    rw [Matrix.conjTranspose_eq_transpose_of_trivial]
    ext i j
    fin_cases i <;> fin_cases j <;> simp [Mex, Matrix.vecHead, Matrix.vecTail]
  exact this

theorem Mex_det_factor (μ : ℝ) :
    Matrix.det (Mex - μ • (1 : Matrix (Fin 3) (Fin 3) ℝ)) =
      -((μ - lam1) * ((μ - lamP) * (μ - lamM))) := by
  have hs := sEx_sq
  unfold Mex lam1 lamP lamM
  rw [Matrix.det_fin_three]
  simp [Matrix.sub_apply, Matrix.smul_apply, Matrix.one_apply,
    Matrix.vecHead, Matrix.vecTail]
  ring_nf
  linear_combination ((1 - μ - cEx) / 4) * hs

theorem Mex_eigenvalues_mem (i : Fin 3) :
    Mex_isHermitian.eigenvalues i = lam1 ∨ Mex_isHermitian.eigenvalues i = lamP ∨
      Mex_isHermitian.eigenvalues i = lamM := by
  set μ := Mex_isHermitian.eigenvalues i with hμ
  have hv := Mex_isHermitian.mulVec_eigenvectorBasis i
  have hv0 : ⇑(Mex_isHermitian.eigenvectorBasis i) ≠ 0 :=
    Mex_isHermitian.eigenvectorBasis.orthonormal.ne_zero i
  have hker : ∃ v, v ≠ 0 ∧ (Mex - μ • (1 : Matrix (Fin 3) (Fin 3) ℝ)) *ᵥ v = 0 := by
    refine ⟨⇑(Mex_isHermitian.eigenvectorBasis i), hv0, ?_⟩
    rw [Matrix.sub_mulVec, Matrix.smul_mulVec_assoc, Matrix.one_mulVec, hv, sub_self]
  have hdet : Matrix.det (Mex - μ • (1 : Matrix (Fin 3) (Fin 3) ℝ)) = 0 :=
    Matrix.exists_mulVec_eq_zero_iff.mp hker
  rw [Mex_det_factor] at hdet
  rcases mul_eq_zero.mp (neg_eq_zero.mp hdet) with h | h
  · exact Or.inl (sub_eq_zero.mp h)
  · rcases mul_eq_zero.mp h with h' | h'
    · exact Or.inr (Or.inl (sub_eq_zero.mp h'))
    · exact Or.inr (Or.inr (sub_eq_zero.mp h'))

theorem Mex_eig_neg : ∃ i, Mex_isHermitian.eigenvalues i < 0 := by
  by_contra hcon
  push_neg at hcon
  have hdet : Matrix.det Mex = ∏ i, Mex_isHermitian.eigenvalues i := by
    simpa using Mex_isHermitian.det_eq_prod_eigenvalues
  have h0 : 0 ≤ Matrix.det Mex := by
    rw [hdet]
    exact Finset.prod_nonneg fun i _ => hcon i
  have hneg : Matrix.det Mex < 0 := by
    have h00 := Mex_det_factor 0
    have hM0 : Mex - (0 : ℝ) • (1 : Matrix (Fin 3) (Fin 3) ℝ) = Mex := by simp
    rw [hM0] at h00
    rw [h00]
    have h1 : 0 < lam1 * lamP := mul_pos lam1_pos lamP_pos
    nlinarith [lamM_neg]
  linarith

/-- Functional calculus for the clamped reconstruction: if a quadratic
`p(x) = x + t (x - α) (x - β)` agrees with `max · 0` on every eigenvalue,
then `V diag(max λ 0) Vᴴ = p(A)`. -/
theorem clamp_reconstruct_eq_poly {n : ℕ} {A : Matrix (Fin n) (Fin n) ℝ}
    (hA : A.IsHermitian) (t α β : ℝ)
    (hp : ∀ i, hA.eigenvalues i + t * ((hA.eigenvalues i - α) * (hA.eigenvalues i - β)) =
      max (hA.eigenvalues i) 0) :
    (hA.eigenvectorUnitary : Matrix (Fin n) (Fin n) ℝ) *
      (Matrix.diagonal (fun i => max (hA.eigenvalues i) 0) *
        (hA.eigenvectorUnitary : Matrix (Fin n) (Fin n) ℝ)ᴴ) =
    A + t • ((A - α • 1) * (A - β • 1)) := by
  set U : Matrix (Fin n) (Fin n) ℝ := (hA.eigenvectorUnitary : Matrix (Fin n) (Fin n) ℝ)
    with hU
  set D : Matrix (Fin n) (Fin n) ℝ := Matrix.diagonal hA.eigenvalues with hDdef
  have hUUh : U * Uᴴ = 1 := by
    have := (Matrix.mem_unitaryGroup_iff).mp hA.eigenvectorUnitary.2
    rwa [Matrix.star_eq_conjTranspose] at this
  have hUhU : Uᴴ * U = 1 := by
    have := (Matrix.mem_unitaryGroup_iff').mp hA.eigenvectorUnitary.2
    rwa [Matrix.star_eq_conjTranspose] at this
  have hspec : A = U * D * Uᴴ := by
    have := hA.spectral_theorem
    simpa [RCLike.ofReal_real_eq_id, Matrix.star_eq_conjTranspose, hDdef] using this
  have hcancel : ∀ X : Matrix (Fin n) (Fin n) ℝ, Uᴴ * (U * X) = X := by
    intro X
    rw [← Matrix.mul_assoc, hUhU, Matrix.one_mul]
  have hmul : ∀ f g : Fin n → ℝ,
      (U * Matrix.diagonal f * Uᴴ) * (U * Matrix.diagonal g * Uᴴ) =
        U * Matrix.diagonal (fun i => f i * g i) * Uᴴ := by
    intro f g
    simp only [Matrix.mul_assoc]
    rw [hcancel (Matrix.diagonal g * Uᴴ), ← Matrix.mul_assoc (Matrix.diagonal f),
      Matrix.diagonal_mul_diagonal]
  have hshift : ∀ c : ℝ, A - c • 1 =
      U * Matrix.diagonal (fun i => hA.eigenvalues i - c) * Uᴴ := by
    intro c
    have h1 : c • (1 : Matrix (Fin n) (Fin n) ℝ) = U * (c • 1) * Uᴴ := by
      rw [Matrix.mul_smul, Matrix.mul_one, Matrix.smul_mul, hUUh]
    have h2 : D - c • (1 : Matrix (Fin n) (Fin n) ℝ) =
        Matrix.diagonal (fun i => hA.eigenvalues i - c) := by
      ext i j
      by_cases hij : i = j
      · subst hij
        simp [hDdef]
      · simp [hDdef, Matrix.diagonal_apply_ne _ hij, Matrix.one_apply_ne hij]
    conv_lhs => rw [hspec, h1]
    rw [← Matrix.sub_mul, ← Matrix.mul_sub, h2]
  have hsmuld : t • Matrix.diagonal
      (fun i => (hA.eigenvalues i - α) * (hA.eigenvalues i - β)) =
      Matrix.diagonal (fun i => t * ((hA.eigenvalues i - α) * (hA.eigenvalues i - β))) := by
    rw [← Matrix.diagonal_smul]
    congr 1
  have hprod : (A - α • 1) * (A - β • 1) =
      U * Matrix.diagonal (fun i => (hA.eigenvalues i - α) * (hA.eigenvalues i - β)) * Uᴴ := by
    rw [hshift α, hshift β, hmul]
  have hsmulc : t • (U * Matrix.diagonal
      (fun i => (hA.eigenvalues i - α) * (hA.eigenvalues i - β)) * Uᴴ) =
      U * Matrix.diagonal
        (fun i => t * ((hA.eigenvalues i - α) * (hA.eigenvalues i - β))) * Uᴴ := by
    rw [← Matrix.smul_mul, ← Matrix.mul_smul, hsmuld]
  have key : A + t • ((A - α • 1) * (A - β • 1)) =
      U * Matrix.diagonal (fun i => hA.eigenvalues i +
        t * ((hA.eigenvalues i - α) * (hA.eigenvalues i - β))) * Uᴴ := by
    rw [hprod, hsmulc]
    nth_rewrite 1 [hspec]
    rw [← Matrix.add_mul, ← Matrix.mul_add, hDdef, Matrix.diagonal_add]
  have hfun : (fun i => max (hA.eigenvalues i) 0) =
      fun i => hA.eigenvalues i + t * ((hA.eigenvalues i - α) * (hA.eigenvalues i - β)) := by
    funext i
    exact (hp i).symm
  rw [← Matrix.mul_assoc, key, hfun]

/-- The interpolation property of `tEx` on the spectrum of `Mex`. -/
theorem Mex_eig_interp (i : Fin 3) :
    Mex_isHermitian.eigenvalues i + tEx * ((Mex_isHermitian.eigenvalues i - lam1) *
      (Mex_isHermitian.eigenvalues i - lamP)) = max (Mex_isHermitian.eigenvalues i) 0 := by
  have hne1 : lamM - lam1 ≠ 0 := by
    have := lamM_neg
    have := lam1_pos
    intro hc
    rw [sub_eq_zero] at hc
    linarith
  have hneP : lamM - lamP ≠ 0 := by
    rw [lamM_sub_lamP]
    have := sEx_pos
    intro hc
    linarith [neg_eq_zero.mp hc]
  rcases Mex_eigenvalues_mem i with h | h | h <;> rw [h]
  · rw [max_eq_left lam1_pos.le]
    ring
  · rw [max_eq_left lamP_pos.le]
    ring
  · rw [max_eq_right lamM_neg.le]
    unfold tEx
    field_simp

/-- The full-matrix projection of the concrete kernel, in closed form. -/
theorem project_psd_Mex :
    project_psd Mex 0 = Mex + tEx • ((Mex - lam1 • 1) * (Mex - lamP • 1)) := by
  have hMt : Mexᵀ = Mex := transpose_eq_of_isHermitian Mex_isHermitian
  have hsymEx : symmetrize Mex = Mex := symmetrize_eq_self Mex hMt
  have hEig := eigenvalues_congr hsymEx (symmetrize_isHermitian Mex) Mex_isHermitian
  have hcond : ∃ i, (symmetrize_isHermitian Mex).eigenvalues i < 0 := by
    obtain ⟨i, hi⟩ := Mex_eig_neg
    exact ⟨i, by rw [hEig]; exact hi⟩
  have hp : ∀ i, (symmetrize_isHermitian Mex).eigenvalues i +
      tEx * (((symmetrize_isHermitian Mex).eigenvalues i - lam1) *
        ((symmetrize_isHermitian Mex).eigenvalues i - lamP)) =
      max ((symmetrize_isHermitian Mex).eigenvalues i) 0 := by
    intro i
    rw [hEig]
    exact Mex_eig_interp i
  have hpoly := clamp_reconstruct_eq_poly (symmetrize_isHermitian Mex) tEx lam1 lamP hp
  rw [project_psd_reconstruct Mex 0 hcond]
  rw [hpoly, hsymEx]
  have hexpand : ∀ p q : ℝ, (Mex - p • 1) * (Mex - q • 1) =
      Mex * Mex - (p + q) • Mex + (p * q) •
        (1 : Matrix (Fin 3) (Fin 3) ℝ) := by
    intro p q
    simp only [Matrix.sub_mul, Matrix.mul_sub, Matrix.smul_mul, Matrix.mul_smul,
      Matrix.one_mul, Matrix.mul_one, smul_sub, smul_smul, add_smul, mul_comm q p]
    abel
  have hcomm : (Mex - lamP • 1) * (Mex - lam1 • 1) =
      (Mex - lam1 • 1) * (Mex - lamP • 1) := by
    rw [hexpand, hexpand, add_comm lamP lam1, mul_comm lamP lam1]
  have hPt : (Mex + tEx • ((Mex - lam1 • 1) * (Mex - lamP • 1)))ᵀ =
      Mex + tEx • ((Mex - lam1 • 1) * (Mex - lamP • 1)) := by
    rw [Matrix.transpose_add, Matrix.transpose_smul, Matrix.transpose_mul,
      Matrix.transpose_sub, Matrix.transpose_sub, Matrix.transpose_smul,
      Matrix.transpose_smul, Matrix.transpose_one, hMt, hcomm]
  exact symmetrize_eq_self _ hPt

/-- The disputed entry of the code's training kernel is strictly below
`aEx`. -/
theorem project_psd_Mex_entry_lt : project_psd Mex 0 0 1 < aEx := by
  rw [project_psd_Mex]
  have hM01 : Mex 0 1 = aEx := by
    simp [Mex, Matrix.vecHead, Matrix.vecTail]
  have e00 : (Mex - lam1 • (1 : Matrix (Fin 3) (Fin 3) ℝ)) 0 0 = 1 - lam1 := by
    simp [Mex, Matrix.sub_apply, Matrix.smul_apply, Matrix.one_apply,
      Matrix.vecHead, Matrix.vecTail]
  have e01 : (Mex - lam1 • (1 : Matrix (Fin 3) (Fin 3) ℝ)) 0 1 = aEx := by
    simp [Mex, Matrix.sub_apply, Matrix.smul_apply, Matrix.one_apply,
      Matrix.vecHead, Matrix.vecTail]
  have e02 : (Mex - lam1 • (1 : Matrix (Fin 3) (Fin 3) ℝ)) 0 2 = aEx := by
    simp [Mex, Matrix.sub_apply, Matrix.smul_apply, Matrix.one_apply,
      Matrix.vecHead, Matrix.vecTail]
  have f01 : (Mex - lamP • (1 : Matrix (Fin 3) (Fin 3) ℝ)) 0 1 = aEx := by
    simp [Mex, Matrix.sub_apply, Matrix.smul_apply, Matrix.one_apply,
      Matrix.vecHead, Matrix.vecTail]
  have f11 : (Mex - lamP • (1 : Matrix (Fin 3) (Fin 3) ℝ)) 1 1 = 1 - lamP := by
    simp [Mex, Matrix.sub_apply, Matrix.smul_apply, Matrix.one_apply,
      Matrix.vecHead, Matrix.vecTail]
  have f21 : (Mex - lamP • (1 : Matrix (Fin 3) (Fin 3) ℝ)) 2 1 = cEx := by
    simp [Mex, Matrix.sub_apply, Matrix.smul_apply, Matrix.one_apply,
      Matrix.vecHead, Matrix.vecTail]
  have hentry : (Mex + tEx • ((Mex - lam1 • 1) * (Mex - lamP • 1))) 0 1 =
      aEx + tEx * (aEx * (3 * cEx - sEx) / 2) := by
    rw [Matrix.add_apply, Matrix.smul_apply, Matrix.mul_apply, Fin.sum_univ_three,
      hM01, e00, e01, e02, f01, f11, f21, smul_eq_mul]
    unfold lam1 lamP
    ring
  rw [hentry]
  have hneg : tEx * (aEx * (3 * cEx - sEx) / 2) < 0 := by
    apply mul_neg_of_pos_of_neg tEx_pos
    apply div_neg_of_neg_of_pos _ two_pos
    apply mul_neg_of_pos_of_neg aEx_pos
    linarith [three_cEx_lt_sEx]
  linarith

/-! ### Evaluating both training kernels at the concrete instance -/

theorem dEx_sq : dEx ^ 2 = 1 / 50 := Real.sq_sqrt (by norm_num)

theorem eEx_sq : eEx ^ 2 = 8 := Real.sq_sqrt (by norm_num)

/-- The Gaussian kernel of the full 3-bag divergence matrix is `Mex`. -/
theorem gauss_divsEx : gauss_km divsEx 1 = Mex := by
  ext i j
  fin_cases i <;> fin_cases j <;>
    norm_num [gauss_km, gaussEntry, divsEx, Mex, Matrix.vecHead, Matrix.vecTail,
      dEx_sq, eEx_sq, aEx, cEx]

theorem subG_posSemidef :
    (!![1, aEx; aEx, 1] : Matrix (Fin 2) (Fin 2) ℝ).PosSemidef := by
  constructor
  · have : (!![1, aEx; aEx, 1] : Matrix (Fin 2) (Fin 2) ℝ)ᴴ = !![1, aEx; aEx, 1] := by
      rw [Matrix.conjTranspose_eq_transpose_of_trivial]
      ext i j
      fin_cases i <;> fin_cases j <;> simp [Matrix.vecHead, Matrix.vecTail]
    exact this
  · intro x
    have hxs : star x = x := by
      funext j
      simp
    rw [hxs]
    have hexp : Matrix.dotProduct x ((!![1, aEx; aEx, 1] :
        Matrix (Fin 2) (Fin 2) ℝ) *ᵥ x) =
        aEx * (x 0 + x 1) ^ 2 + (1 - aEx) * (x 0 ^ 2 + x 1 ^ 2) := by
      simp [Matrix.dotProduct, Matrix.mulVec, Fin.sum_univ_two,
        Matrix.vecHead, Matrix.vecTail]
      ring
    rw [hexp]
    have h1 : 0 ≤ aEx * (x 0 + x 1) ^ 2 := mul_nonneg aEx_pos.le (sq_nonneg _)
    have h2 : 0 ≤ (1 - aEx) * (x 0 ^ 2 + x 1 ^ 2) :=
      mul_nonneg (by linarith [aEx_lt_one]) (by positivity)
    linarith

theorem subG_isSymm : (!![1, aEx; aEx, 1] : Matrix (Fin 2) (Fin 2) ℝ).IsSymm := by
  show _ = _
  ext i j
  fin_cases i <;> fin_cases j <;> simp [Matrix.vecHead, Matrix.vecTail]

/-- The labeled sub-block's kernel is already PSD: the claim's projection
of it is the identity. -/
theorem make_km_sub : make_km (!![0, dEx; dEx, 0]) 1 = !![1, aEx; aEx, 1] := by
  have hg : gauss_km (!![0, dEx; dEx, 0]) 1 = !![1, aEx; aEx, 1] := by
    ext i j
    fin_cases i <;> fin_cases j <;>
      norm_num [gauss_km, gaussEntry, Matrix.vecHead, Matrix.vecTail, dEx_sq, aEx]
  unfold make_km
  rw [hg]
  exact project_psd_eq_self_of_psd _ subG_isSymm subG_posSemidef

theorem labeledIdx_yEx : labeledIdx yEx = [0, 1] := by decide

theorem SDMfit_train_km_Ex : (SDMfit XEx yEx divsEx 1).train_km =
    [[make_km divsEx 1 0 0, make_km divsEx 1 0 1],
     [make_km divsEx 1 1 0, make_km divsEx 1 1 1]] := rfl

theorem fit_train_km_claim_Ex : fit_train_km_claim yEx divsEx 1 =
    [[make_km subDivsEx 1 0 0, make_km subDivsEx 1 0 1],
     [make_km subDivsEx 1 1 0, make_km subDivsEx 1 1 1]] := rfl

theorem subDivsEx_eq : subDivsEx = !![0, dEx; dEx, 0] := by
  ext p q
  fin_cases p <;> fin_cases q <;> rfl

/-- Counterexample for C4: with one sentinel-labeled bag present, the
training kernel `fit` builds (slice of the projection of the full
labeled+sentinel kernel) differs from the claim's kernel (projection of
the labeled sub-block only): the full kernel needs a correction that
changes the (0,1) entry, while the sub-block kernel is already PSD. -/
theorem fit_projection_not_subblock_cex :
    (SDMfit XEx yEx divsEx 1).train_km ≠ fit_train_km_claim yEx divsEx 1 := by
  intro h
  rw [SDMfit_train_km_Ex, fit_train_km_claim_Ex, subDivsEx_eq] at h
  have h01 := congrArg (fun l : List (List ℝ) => (l.getD 0 []).getD 1 0) h
  simp only [List.getD_cons_zero, List.getD_cons_succ] at h01
  rw [make_km_sub] at h01
  have hcode : make_km divsEx 1 0 1 = project_psd Mex 0 0 1 := by
    unfold make_km
    rw [gauss_divsEx]
  rw [hcode] at h01
  have hsub01 : (!![1, aEx; aEx, 1] : Matrix (Fin 2) (Fin 2) ℝ) 0 1 = aEx := by
    simp [Matrix.vecHead, Matrix.vecTail]
  rw [hsub01] at h01
  have hlt := project_psd_Mex_entry_lt
  rw [h01] at hlt
  exact lt_irrefl _ hlt

/-- C4 (amended): `fit` tunes on exactly the labeled sub-block of the
divergences; the PSD projection is applied to the Gaussian kernel of the
*full passed bag set* (labeled and sentinel — never bags beyond the
passed set) and the SVM's training kernel is the labeled sub-block of
that projected kernel; sentinel-labeled bags are excluded from the SVM's
labels; and the retained training bags are the labeled bags in their
original order (the labeled index list is exactly the set `y i ≠ -1`,
in increasing index order). -/
theorem fit_labeled_subblock_characterization {n : ℕ} {α : Type} (X : Fin n → α)
    (y : Fin n → ℤ) (divs : Matrix (Fin n) (Fin n) ℝ) (sigma : ℝ) :
    ((∀ i : Fin n, i ∈ labeledIdx y ↔ y i ≠ -1) ∧
      (labeledIdx y).Sorted (· < ·)) ∧
    (SDMfit X y divs sigma).train_bags = (labeledIdx y).map X ∧
    (SDMfit X y divs sigma).tune_divs =
      (labeledIdx y).map (fun i => (labeledIdx y).map (fun j => divs i j)) ∧
    (SDMfit X y divs sigma).train_km =
      (labeledIdx y).map (fun i => (labeledIdx y).map (fun j =>
        project_psd (gauss_km divs sigma) 0 i j)) ∧
    ∀ v ∈ (SDMfit X y divs sigma).svm_y, v ≠ -1 := by
  refine ⟨⟨?_, ?_⟩, rfl, rfl, rfl, ?_⟩
  · intro i
    simp [labeledIdx, List.mem_filter]
  · exact List.Pairwise.filter _ (List.pairwise_lt_finRange n)
  · intro v hv
    simp only [SDMfit, List.mem_map] at hv
    obtain ⟨i, hi, rfl⟩ := hv
    have := (List.mem_filter.mp hi).2
    simpa using this

end SDM
